import Mathlib

/-!
Verification of the batching and upload-commit protocol of the s3_loader
repository (s3_loader/s3_loader.py and liveweb_loader.py), as a shallow
embedding.

Modelling conventions:
* The filesystem is an oracle `FsEnv`: `ctime f` stands for
  `os.path.getctime(os.path.join(self.dir, f))`, given as whole seconds since
  the Unix epoch plus the sub-second microseconds of the float.
* The object store is a set of oracles: `memB f st.remote` stands for
  `bucket.get_key(f) is not None`; `putOk f` tells whether
  `key.set_contents_from_filename` for `f` returns or raises;
  `delOk f` tells whether `os.unlink` for `f` returns or raises.
  A put that raises is modelled as leaving no remote key behind.
* Python exceptions are modelled by `Option` results (for `NameError`,
  `IndexError`, `ValueError`) or by an aborted run (`completed = false`).
* Machine strings are ASCII here, so Python `\w` is letters, digits and
  underscore, and `\d` is `0`-`9`.
-/

/-- Filesystem oracle: creation time of a spool file, as
(seconds since epoch, microseconds). -/
structure FsEnv where
  ctime : String → Nat × Nat

/-- Python `\w` on ASCII input: letters, digits and the underscore. -/
def isWordChar (c : Char) : Bool := c.isAlphanum || c == '_'

/-- Tail of the filename patterns after the second digit group:
`.w?arc.gz$` where each `.` is an unescaped regex dot (any character).
The optional `w` is deterministic because the `with-w` and `without-w`
shapes need different total lengths before the anchored end. -/
def arcTailOk : List Char → Bool
  | _ :: 'w' :: 'a' :: 'r' :: 'c' :: _ :: 'g' :: 'z' :: [] => true
  | _ :: 'a' :: 'r' :: 'c' :: _ :: 'g' :: 'z' :: [] => true
  | _ => false

/-- Greedy backtracking of the captured `(\d+)`: `ds` is the maximal digit
run, `rest` what follows it; try the longest capture first and shorten,
exactly as the regex engine does. `0` digits is not allowed by `\d+`. -/
def tryGroup (ds rest : List Char) : Nat → Option (List Char)
  | 0 => none
  | k + 1 =>
    if arcTailOk (ds.drop (k + 1) ++ rest) then some (ds.take (k + 1))
    else tryGroup ds rest k

/-- A literal `-` after a run, as both regexes require. -/
def afterDash : List Char → Option (List Char)
  | '-' :: r => some r
  | _ => none

/-- Matcher for the two anchored patterns `\w+-(\d+)-\d+.w?arc.gz$` (used by
`get_timestamp`) and `\w+-\d+-(\d+).w?arc.gz$` (used by `get_seq_num`).
The two patterns recognize exactly the same strings and differ only in which
digit run is captured, so one matcher returns both runs: the first component
is the first digit run, the second is the capture of the second `(\d+)`.
`\w+` and the first `\d+` admit no backtracking: each must end at its maximal
run with a literal `-` right after it. -/
def s3FilenameMatch (s : List Char) : Option (List Char × List Char) :=
  let w := s.takeWhile isWordChar
  if w.isEmpty then none else
  match afterDash (s.dropWhile isWordChar) with
  | none => none
  | some r2 =>
    let d1 := r2.takeWhile Char.isDigit
    if d1.isEmpty then none else
    match afterDash (r2.dropWhile Char.isDigit) with
    | none => none
    | some r4 =>
      let d2 := r4.takeWhile Char.isDigit
      if d2.isEmpty then none else
      match tryGroup d2 (r4.dropWhile Char.isDigit) d2.length with
      | some g => some (d1, g)
      | none => none

/-- `S3_Loader.get_seq_num`: second digit group on a match, else the
documented fallback `"00000"`. -/
def get_seq_num (file : String) : String :=
  match s3FilenameMatch file.data with
  | some (_, g) => String.mk g
  | none => "00000"

/-- Left-pad a number with `0` to a given width, like Python zero-padded
`strftime` fields. -/
def padDigits (w n : Nat) : List Char :=
  List.replicate (w - (toString n).data.length) '0' ++ (toString n).data

/-- Civil date from days since 1970-01-01 (proleptic Gregorian), the
conversion inside `datetime.utcfromtimestamp`. -/
def civilFromDays (days : Nat) : Nat × Nat × Nat :=
  let z := days + 719468
  let era := z / 146097
  let doe := z % 146097
  let yoe := (doe - doe / 1460 + doe / 36524 - doe / 146096) / 365
  let y := yoe + era * 400
  let doy := doe - (365 * yoe + yoe / 4 - yoe / 100)
  let mp := (5 * doy + 2) / 153
  let d := doy - (153 * mp + 2) / 5 + 1
  let m := if mp < 10 then mp + 3 else mp - 9
  (if m ≤ 2 then y + 1 else y, m, d)

/-- `datetime.utcfromtimestamp(secs).strftime('%Y%m%d%H%M%S%f')`: the
20-character microsecond-precision UTC stamp (4+2+2+2+2+2+6 digits). -/
def utcStampList (secs micros : Nat) : List Char :=
  let rem := secs % 86400
  let ymd := civilFromDays (secs / 86400)
  padDigits 4 ymd.1 ++ padDigits 2 ymd.2.1 ++ padDigits 2 ymd.2.2 ++
  padDigits 2 (rem / 3600) ++ padDigits 2 (rem % 3600 / 60) ++
  padDigits 2 (rem % 60) ++ padDigits 6 (micros % 1000000)

/-- `S3_Loader.get_timestamp`: first digit group on a match, else the ctime
of the file formatted as the microsecond stamp truncated to 17 characters
(`[:17]`, milliseconds). -/
def get_timestamp (env : FsEnv) (file : String) : String :=
  match s3FilenameMatch file.data with
  | some (d1, _) => String.mk d1
  | none =>
    String.mk ((utcStampList (env.ctime file).1 (env.ctime file).2).take 17)

/-- Loop body of `S3_Loader.make_filelist`, iterating over
`zip(files, sizes)`. `upload_size` starts at `0` and — exactly as in the
source — is never incremented, so the size check compares `max_size`
against `0` forever. The `a.pop()` line of the source refers to an
undefined variable `a` and raises `NameError` if ever reached; that
crash is the `none` result. -/
def makeFilelistGo (max_files max_size : Nat) :
    List (String × Nat) → Nat → List String → Option (List String)
  | [], _, filelist => some filelist
  | (file, _size) :: rest, upload_size, filelist =>
    let filelist := filelist ++ [file]
    if filelist.length == max_files then some filelist
    else if max_size ≤ upload_size then
      if 1 < filelist.length then none
      else some filelist
    else makeFilelistGo max_files max_size rest upload_size filelist

/-- `S3_Loader.make_filelist`. -/
def make_filelist (max_files max_size : Nat) (files : List String)
    (sizes : List Nat) : Option (List String) :=
  makeFilelistGo max_files max_size (files.zip sizes) 0 []

/-- Python `filelist[-1]` given the head as default accumulator:
`lastD d l` is the last element of `l`, or `d` when `l` is empty. -/
def lastD (d : String) : List String → String
  | [] => d
  | f :: rest => lastD f rest

/-- `S3_Loader.make_bucket_name`: `"%s-%s-%s-%s" % (prefix, first_timestamp,
first_seq_num, last_timestamp)`. `filelist[0]` on an empty batch raises
`IndexError`, which is the `none` result. -/
def make_bucket_name (env : FsEnv) (pfx : String) :
    List String → Option String
  | [] => none
  | f0 :: rest =>
    let first_seq_num := get_seq_num f0
    let first_timestamp := get_timestamp env f0
    let last_timestamp := get_timestamp env (lastD f0 rest)
    some (pfx ++ "-" ++ first_timestamp ++ "-" ++ first_seq_num ++ "-" ++
      last_timestamp)

/-- The `while i<10` convergence-wait loop of `S3_Loader.s3_get_bucket`:
`lookup k` is the result of the k-th in-loop `conn.lookup`; after a failed
lookup the loop sleeps 60 seconds and retries. Returns (number of lookups
performed, seconds slept, whether a lookup ever found the bucket). -/
def pollLoop (lookup : Nat → Bool) : Nat → Nat → Nat × Nat × Bool
  | _, 0 => (0, 0, false)
  | i, fuel + 1 =>
    if lookup i then (1, 0, true)
    else
      let r := pollLoop lookup (i + 1) fuel
      (r.1 + 1, r.2.1 + 60, r.2.2)

/-- Outcome of `S3_Loader.s3_get_bucket`: the function always returns a
bucket handle (there is no failure path once `create_bucket` returns);
the other fields record what the waiting loop observed. -/
structure BucketRes where
  bucket : String
  createdReq : Bool
  lookups : Nat
  slept : Nat
  confirmed : Bool
  deriving Repr, DecidableEq

/-- `S3_Loader.s3_get_bucket`: if the initial `conn.lookup` finds the bucket
return it; otherwise issue `create_bucket` and run the bounded wait loop.
Whatever the loop observed, the handle from `create_bucket` is returned. -/
def s3_get_bucket (initFound : Bool) (lookup : Nat → Bool)
    (bucket_name : String) : BucketRes :=
  if initFound then ⟨bucket_name, false, 0, 0, true⟩
  else
    let r := pollLoop lookup 0 10
    ⟨bucket_name, true, r.1, r.2.1, r.2.2⟩

/-- Headers built by `S3_Loader.s3_upload_file`: only the derive-queue
header, present exactly when `no_derive` is set. -/
def s3_upload_headers (no_derive : Bool) : List (String × String) :=
  if no_derive then [("x-archive-queue-derive", "0")] else []

/-- Boolean membership in the remote key set, mirroring
`bucket.get_key(filename) is not None`. -/
def memB (f : String) : List String → Bool
  | [] => false
  | g :: r => (f == g) || memB f r

/-- One observable step of the upload loop: a skip of an already-present
key, a `set_contents_from_filename` call with its `no_derive` flag and
outcome, or an `os.unlink` call with its outcome. -/
inductive UpEv where
  | skipped (f : String)
  | putCall (f : String) (noDerive : Bool) (ok : Bool)
  | unlinkCall (f : String) (ok : Bool)
  deriving Repr, DecidableEq

/-- State threaded through the upload loop: keys present in the remote
bucket and files present in the spool directory. -/
structure SpoolSt where
  remote : List String
  localFiles : List String
  deriving Repr, DecidableEq

/-- Result of the per-file loop of `upload_and_delete_files`: the event
trace, the final state, and whether the loop ran to completion
(`false` when an exception aborted the remaining batch). -/
structure LoopOut where
  trace : List UpEv
  final : SpoolSt
  completed : Bool
  deriving Repr, DecidableEq

/-- The `for filename in filelist` loop of
`S3_Loader.upload_and_delete_files`: skip files whose key already exists
(warning only, no deletion); otherwise upload with `no_derive` set unless
the filename equals `filelist[-1]` (`lastName`), and delete the local copy
only after the put returned. A raising put aborts the batch with nothing
deleted for that file; a raising unlink aborts the batch right after the
successful put (the source has no handler around `os.unlink`). -/
def uploadLoop (putOk delOk : String → Bool) (lastName : String) :
    List String → SpoolSt → LoopOut
  | [], st => ⟨[], st, true⟩
  | f :: rest, st =>
    if memB f st.remote then
      let o := uploadLoop putOk delOk lastName rest st
      ⟨.skipped f :: o.trace, o.final, o.completed⟩
    else
      let nd := f != lastName
      if putOk f then
        if delOk f then
          let o := uploadLoop putOk delOk lastName rest
            ⟨f :: st.remote, st.localFiles.erase f⟩
          ⟨.putCall f nd true :: .unlinkCall f true :: o.trace,
            o.final, o.completed⟩
        else
          ⟨[.putCall f nd true, .unlinkCall f false],
            ⟨f :: st.remote, st.localFiles⟩, false⟩
      else
        ⟨[.putCall f nd false], st, false⟩

/-- The put calls of a trace that carry the derive trigger
(`no_derive = false`), with their outcomes. -/
def derivePutOf : UpEv → Option (String × Bool)
  | .putCall f false ok => some (f, ok)
  | _ => none

/-- All derive-triggering put calls of a trace, in order. -/
def derivePuts (t : List UpEv) : List (String × Bool) :=
  t.filterMap derivePutOf

/-- Observable outcome of one `upload_and_delete_files` cycle. -/
structure CycleRes where
  filelist : List String
  bucketName : String
  lookups : Nat
  slept : Nat
  confirmed : Bool
  trace : List UpEv
  final : SpoolSt
  completed : Bool
  deriving Repr, DecidableEq

/-- `S3_Loader.upload_and_delete_files`: build the batch, name the bucket,
resolve the bucket (whose convergence result is never inspected), then run
the per-file loop. `none` models the crash inside `make_filelist` or the
`IndexError` of naming an empty batch. -/
def upload_and_delete_files (maxFiles maxSize : Nat) (env : FsEnv)
    (pfx : String) (initFound : Bool) (lookup : Nat → Bool)
    (putOk delOk : String → Bool) (files : List String) (sizes : List Nat)
    (st : SpoolSt) : Option CycleRes :=
  match make_filelist maxFiles maxSize files sizes with
  | none => none
  | some filelist =>
    match make_bucket_name env pfx filelist with
    | none => none
    | some bucketName =>
      let br := s3_get_bucket initFound lookup bucketName
      let o := uploadLoop putOk delOk (lastD "" filelist) filelist st
      some ⟨filelist, bucketName, br.lookups, br.slept, br.confirmed,
        o.trace, o.final, o.completed⟩

/-- The part of a cycle outcome that does not mention the bucket-wait
observations. -/
def cycleObservable (r : CycleRes) : List UpEv × SpoolSt × Bool :=
  (r.trace, r.final, r.completed)

/-- Replace every non-overlapping occurrence of `pat` in a character list,
left to right, continuing after each replacement: the behaviour of
`re.sub` with a literal pattern. Fuel bounds the scan by the input length. -/
def replaceAllGo (pat repl : List Char) : Nat → List Char → List Char
  | _, [] => []
  | 0, l => l
  | fuel + 1, l =>
    if pat.isPrefixOf l then repl ++ replaceAllGo pat repl fuel (l.drop pat.length)
    else
      match l with
      | [] => []
      | c :: rest => c :: replaceAllGo pat repl fuel rest

/-- `re.sub` with a literal pattern, on strings. -/
def replaceAll (s pat repl : String) : String :=
  String.mk (replaceAllGo pat.data repl.data s.data.length s.data)

/-- Number of digits in a decimal string prefix, as `strptime` reads
fixed-width fields. -/
def digitsToNat (l : List Char) : Nat :=
  l.foldl (fun a c => a * 10 + (c.toNat - 48)) 0

/-- Length of a month, for the range check `datetime` performs. -/
def daysInMonth (y m : Nat) : Nat :=
  if m == 2 then
    (if (y % 4 == 0 && y % 100 != 0) || y % 400 == 0 then 29 else 28)
  else if m == 4 || m == 6 || m == 9 || m == 11 then 30 else 31

/-- Whether `datetime.strptime(s, '%Y%m%d%H%M%S')` accepts the 14
characters: all digits and every field in range (`datetime` rejects
year 0, month or day out of range, and out-of-range clock fields). -/
def validDT14 (l : List Char) : Bool :=
  if l.length == 14 && l.all Char.isDigit then
    let y := digitsToNat (l.take 4)
    let mo := digitsToNat ((l.drop 4).take 2)
    let d := digitsToNat ((l.drop 6).take 2)
    let h := digitsToNat ((l.drop 8).take 2)
    let mi := digitsToNat ((l.drop 10).take 2)
    let s := digitsToNat ((l.drop 12).take 2)
    decide (1 ≤ y) && decide (1 ≤ mo) && decide (mo ≤ 12) &&
    decide (1 ≤ d) && decide (d ≤ daysInMonth y mo) &&
    decide (h ≤ 23) && decide (mi ≤ 59) && decide (s ≤ 59)
  else false

/-- `datetime.strptime(ts[:14], '%Y%m%d%H%M%S').isoformat()`: `none` is the
`ValueError` raised on a timestamp that does not parse. -/
def isoFromTs14 (ts : String) : Option String :=
  let l := ts.data.take 14
  if validDT14 l then
    some (String.mk (l.take 4 ++ '-' :: (l.drop 4).take 2 ++
      '-' :: (l.drop 6).take 2 ++ 'T' :: (l.drop 8).take 2 ++
      ':' :: (l.drop 10).take 2 ++ ':' :: (l.drop 12).take 2))
  else none

/-- `Liveweb_Loader.format_metadata`: substitute `CRAWLHOST`, `START_DATE`
and `END_DATE` into each template value, prefix each key with
`x-archive-meta-`, and append the `x-archive-size-hint` attribute with the
batch's byte size. `host` models `socket.gethostname()`. `none` models the
`IndexError` on an empty batch or the `ValueError` of `strptime`. -/
def format_metadata (host : String) (metadata : List (String × String))
    (env : FsEnv) (filelist : List String) (upload_size : Nat) :
    Option (List (String × String)) :=
  match filelist with
  | [] => none
  | f0 :: rest =>
    let first_timestamp := get_timestamp env f0
    let last_timestamp := get_timestamp env (lastD f0 rest)
    match isoFromTs14 first_timestamp, isoFromTs14 last_timestamp with
    | some s1, some s2 =>
      let start_date := s1 ++ " UTC"
      let end_date := s2 ++ " UTC"
      some ((metadata.map (fun kv =>
        ("x-archive-meta-" ++ kv.1,
          replaceAll (replaceAll (replaceAll kv.2 "CRAWLHOST" host)
            "START_DATE" start_date) "END_DATE" end_date))) ++
        [("x-archive-size-hint", toString upload_size)])
    | _, _ => none

/-- Characters of a canonical well-formed archive filename
`<word-chars>-<digits>-<digits>.(w)arc.gz`. -/
def canonList (w d1 d2 : List Char) (useW : Bool) : List Char :=
  w ++ '-' :: (d1 ++ '-' :: (d2 ++ '.' :: ((if useW then ['w'] else []) ++
    ['a', 'r', 'c', '.', 'g', 'z'])))

/-- Oracle that always succeeds. -/
def allTrue : String → Bool := fun _ => true

/-- Oracle under which only file "a" fails. -/
def failsOnA : String → Bool := fun f => f != "a"

/-- Lookup oracle that never finds the bucket. -/
def lookupNever : Nat → Bool := fun _ => false

/-- Lookup oracle that finds the bucket at once. -/
def lookupAlways : Nat → Bool := fun _ => true

/-- Filesystem oracle with every ctime at the epoch. -/
def fsEnv0 : FsEnv := ⟨fun _ => (0, 0)⟩

/-! General helper lemmas. -/

theorem data_mk (l : List Char) : (String.mk l).data = l := rfl

theorem lastD_concat (d a : String) (l : List String) :
    lastD d (l ++ [a]) = a := by
  induction l generalizing d with
  | nil => rfl
  | cons c t ih => simpa [lastD] using ih c

theorem lastD_mem (d : String) (l : List String) (h : l ≠ []) :
    lastD d l ∈ l := by
  induction l generalizing d with
  | nil => exact absurd rfl h
  | cons c t ih =>
    cases t with
    | nil => simp [lastD]
    | cons c2 t2 => simpa [lastD] using Or.inr (ih c (by simp))

theorem padDigits_len (w n : Nat) : w ≤ (padDigits w n).length := by
  simp only [padDigits, List.length_append, List.length_replicate]
  omega

theorem utcStampList_len (secs micros : Nat) :
    17 ≤ (utcStampList secs micros).length := by
  simp only [utcStampList, List.length_append]
  have h1 := padDigits_len 4 (civilFromDays (secs / 86400)).1
  have h2 := padDigits_len 2 (civilFromDays (secs / 86400)).2.1
  have h3 := padDigits_len 2 (civilFromDays (secs / 86400)).2.2
  have h4 := padDigits_len 2 (secs % 86400 / 3600)
  have h5 := padDigits_len 2 (secs % 86400 % 3600 / 60)
  have h6 := padDigits_len 2 (secs % 86400 % 60)
  have h7 := padDigits_len 6 (micros % 1000000)
  omega

theorem takeWhile_all_stop {p : Char → Bool} {w : List Char} (r : List Char)
    (c : Char) (hw : ∀ x ∈ w, p x = true) (hc : p c = false) :
    (w ++ c :: r).takeWhile p = w ∧ (w ++ c :: r).dropWhile p = c :: r := by
  induction w with
  | nil => simp [List.takeWhile_cons, List.dropWhile_cons, hc]
  | cons a t ih =>
    have ha : p a = true := hw a (List.mem_cons_self a t)
    have h2 : ∀ x ∈ t, p x = true := fun x hx => hw x (List.mem_cons_of_mem a hx)
    obtain ⟨h3, h4⟩ := ih h2
    simp [List.takeWhile_cons, List.dropWhile_cons, ha, h3, h4]

theorem afterDash_dash (r : List Char) : afterDash ('-' :: r) = some r := rfl

/-- On a canonical filename the matcher returns exactly the embedded digit
groups: the whole maximal runs are accepted on the first backtracking try. -/
theorem s3match_canon (w d1 d2 : List Char) (useW : Bool)
    (hw : w ≠ []) (hwc : ∀ x ∈ w, isWordChar x = true)
    (h1 : d1 ≠ []) (h1d : ∀ x ∈ d1, x.isDigit = true)
    (h2 : d2 ≠ []) (h2d : ∀ x ∈ d2, x.isDigit = true) :
    s3FilenameMatch (canonList w d1 d2 useW) = some (d1, d2) := by
  have hdash : isWordChar '-' = false := by decide
  have hdashD : Char.isDigit '-' = false := by decide
  have hdotD : Char.isDigit '.' = false := by decide
  obtain ⟨ht1, hd1⟩ := takeWhile_all_stop (p := isWordChar)
    (d1 ++ '-' :: (d2 ++ '.' :: ((if useW then ['w'] else []) ++
      ['a', 'r', 'c', '.', 'g', 'z']))) '-' hwc hdash
  obtain ⟨ht2, hd2⟩ := takeWhile_all_stop (p := Char.isDigit)
    (d2 ++ '.' :: ((if useW then ['w'] else []) ++
      ['a', 'r', 'c', '.', 'g', 'z'])) '-' h1d hdashD
  obtain ⟨ht3, hd3⟩ := takeWhile_all_stop (p := Char.isDigit)
    ((if useW then ['w'] else []) ++ ['a', 'r', 'c', '.', 'g', 'z']) '.'
    h2d hdotD
  have hwE : w.isEmpty = false := by cases w with
    | nil => exact absurd rfl hw
    | cons a t => rfl
  have h1E : d1.isEmpty = false := by cases d1 with
    | nil => exact absurd rfl h1
    | cons a t => rfl
  have h2E : d2.isEmpty = false := by cases d2 with
    | nil => exact absurd rfl h2
    | cons a t => rfl
  obtain ⟨k, hk⟩ : ∃ k, d2.length = k + 1 := by
    cases d2 with
    | nil => exact absurd rfl h2
    | cons a t => exact ⟨t.length, rfl⟩
  have hdrop : d2.drop (k + 1) = [] := by rw [← hk]; exact List.drop_length d2
  have htake : d2.take (k + 1) = d2 := by rw [← hk]; exact List.take_length d2
  have harc : arcTailOk ('.' :: ((if useW then ['w'] else []) ++
      ['a', 'r', 'c', '.', 'g', 'z'])) = true := by cases useW <;> rfl
  simp only [s3FilenameMatch, canonList, ht1, hd1, hwE, afterDash_dash,
    ht2, hd2, h1E, ht3, hd3, h2E, hk, tryGroup, hdrop, List.nil_append,
    harc, if_true, htake, Bool.false_eq_true, if_false]

/-! Invariants of the per-file upload loop. -/

theorem uploadLoop_put_mem (P D : String → Bool) (L : String) :
    ∀ (files : List String) (st : SpoolSt) (f : String) (nd ok : Bool),
      UpEv.putCall f nd ok ∈ (uploadLoop P D L files st).trace → f ∈ files := by
  intro files
  induction files with
  | nil => intro st f nd ok h; simp [uploadLoop] at h
  | cons a rest ih =>
    intro st f nd ok h
    simp only [uploadLoop] at h
    cases hc : memB a st.remote with
    | true =>
      simp only [hc, if_true] at h
      simp only [List.mem_cons] at h
      rcases h with h | h
      · simp at h
      · exact List.mem_cons_of_mem a (ih st f nd ok h)
    | false =>
      simp only [hc, Bool.false_eq_true, if_false] at h
      cases hP : P a with
      | true =>
        simp only [hP, if_true] at h
        cases hD : D a with
        | true =>
          simp only [hD, if_true, List.mem_cons] at h
          rcases h with h | h | h
          · simp only [UpEv.putCall.injEq] at h
            exact h.1 ▸ List.mem_cons_self a rest
          · simp at h
          · exact List.mem_cons_of_mem a (ih _ f nd ok h)
        | false =>
          simp only [hD, Bool.false_eq_true, if_false, List.mem_cons,
            List.mem_singleton] at h
          rcases h with h | h
          · simp only [UpEv.putCall.injEq] at h
            exact h.1 ▸ List.mem_cons_self a rest
          · simp at h
      | false =>
        simp only [hP, Bool.false_eq_true, if_false, List.mem_singleton] at h
        simp only [UpEv.putCall.injEq] at h
        exact h.1 ▸ List.mem_cons_self a rest

theorem uploadLoop_unlink_mem (P D : String → Bool) (L : String) :
    ∀ (files : List String) (st : SpoolSt) (f : String) (ok : Bool),
      UpEv.unlinkCall f ok ∈ (uploadLoop P D L files st).trace → f ∈ files := by
  intro files
  induction files with
  | nil => intro st f ok h; simp [uploadLoop] at h
  | cons a rest ih =>
    intro st f ok h
    simp only [uploadLoop] at h
    cases hc : memB a st.remote with
    | true =>
      simp only [hc, if_true, List.mem_cons] at h
      rcases h with h | h
      · simp at h
      · exact List.mem_cons_of_mem a (ih st f ok h)
    | false =>
      simp only [hc, Bool.false_eq_true, if_false] at h
      cases hP : P a with
      | true =>
        simp only [hP, if_true] at h
        cases hD : D a with
        | true =>
          simp only [hD, if_true, List.mem_cons] at h
          rcases h with h | h | h
          · simp at h
          · simp only [UpEv.unlinkCall.injEq] at h
            exact h.1 ▸ List.mem_cons_self a rest
          · exact List.mem_cons_of_mem a (ih _ f ok h)
        | false =>
          simp only [hD, Bool.false_eq_true, if_false, List.mem_cons,
            List.mem_singleton] at h
          rcases h with h | h | h
          · simp at h
          · injection h with h1 h2
            exact h1 ▸ List.mem_cons_self a rest
          · simp at h
      | false =>
        simp only [hP, Bool.false_eq_true, if_false, List.mem_singleton] at h
        simp at h

theorem uploadLoop_put_nd (P D : String → Bool) (L : String) :
    ∀ (files : List String) (st : SpoolSt) (f : String) (nd ok : Bool),
      UpEv.putCall f nd ok ∈ (uploadLoop P D L files st).trace →
      nd = (f != L) := by
  intro files
  induction files with
  | nil => intro st f nd ok h; simp [uploadLoop] at h
  | cons a rest ih =>
    intro st f nd ok h
    simp only [uploadLoop] at h
    cases hc : memB a st.remote with
    | true =>
      simp only [hc, if_true, List.mem_cons] at h
      rcases h with h | h
      · simp at h
      · exact ih st f nd ok h
    | false =>
      simp only [hc, Bool.false_eq_true, if_false] at h
      cases hP : P a with
      | true =>
        simp only [hP, if_true] at h
        cases hD : D a with
        | true =>
          simp only [hD, if_true, List.mem_cons] at h
          rcases h with h | h | h
          · simp only [UpEv.putCall.injEq] at h
            rw [h.2.1, h.1]
          · simp at h
          · exact ih _ f nd ok h
        | false =>
          simp only [hD, Bool.false_eq_true, if_false, List.mem_cons,
            List.mem_singleton] at h
          rcases h with h | h
          · simp only [UpEv.putCall.injEq] at h
            rw [h.2.1, h.1]
          · simp at h
      | false =>
        simp only [hP, Bool.false_eq_true, if_false, List.mem_singleton] at h
        simp only [UpEv.putCall.injEq] at h
        rw [h.2.1, h.1]

theorem uploadLoop_remote_mono (P D : String → Bool) (L : String) :
    ∀ (files : List String) (st : SpoolSt) (f : String),
      memB f st.remote = true →
      memB f (uploadLoop P D L files st).final.remote = true := by
  intro files
  induction files with
  | nil => intro st f h; simpa [uploadLoop] using h
  | cons a rest ih =>
    intro st f h
    simp only [uploadLoop]
    cases hc : memB a st.remote with
    | true => simp only [hc, if_true]; exact ih st f h
    | false =>
      simp only [hc, Bool.false_eq_true, if_false]
      cases hP : P a with
      | true =>
        simp only [hP, if_true]
        cases hD : D a with
        | true =>
          simp only [hD, if_true]
          exact ih _ f (by simp [memB, h])
        | false => simpa [hD, memB] using Or.inr h
      | false => simpa [hP] using h

theorem uploadLoop_skip_no_put (P D : String → Bool) (L : String) :
    ∀ (files : List String) (st : SpoolSt) (f : String),
      memB f st.remote = true → ∀ nd ok : Bool,
      UpEv.putCall f nd ok ∉ (uploadLoop P D L files st).trace := by
  intro files
  induction files with
  | nil => intro st f hf nd ok h; simp [uploadLoop] at h
  | cons a rest ih =>
    intro st f hf nd ok h
    simp only [uploadLoop] at h
    cases hc : memB a st.remote with
    | true =>
      simp only [hc, if_true, List.mem_cons] at h
      rcases h with h | h
      · simp at h
      · exact ih st f hf nd ok h
    | false =>
      have hfa : f ≠ a := by
        intro he
        rw [he, hc] at hf
        simp at hf
      simp only [hc, Bool.false_eq_true, if_false] at h
      cases hP : P a with
      | true =>
        simp only [hP, if_true] at h
        cases hD : D a with
        | true =>
          simp only [hD, if_true, List.mem_cons] at h
          rcases h with h | h | h
          · injection h with h1 h2 h3
            exact hfa h1
          · simp at h
          · exact ih _ f (by simp [memB, hf]) nd ok h
        | false =>
          simp only [hD, Bool.false_eq_true, if_false, List.mem_cons] at h
          rcases h with h | h | h
          · injection h with h1 h2 h3
            exact hfa h1
          · simp at h
          · simp at h
      | false =>
        simp only [hP, Bool.false_eq_true, if_false, List.mem_cons] at h
        rcases h with h | h
        · injection h with h1 h2 h3
          exact hfa h1
        · simp at h

theorem uploadLoop_skip_no_unlink (P D : String → Bool) (L : String) :
    ∀ (files : List String) (st : SpoolSt) (f : String),
      memB f st.remote = true → ∀ ok : Bool,
      UpEv.unlinkCall f ok ∉ (uploadLoop P D L files st).trace := by
  intro files
  induction files with
  | nil => intro st f hf ok h; simp [uploadLoop] at h
  | cons a rest ih =>
    intro st f hf ok h
    simp only [uploadLoop] at h
    cases hc : memB a st.remote with
    | true =>
      simp only [hc, if_true, List.mem_cons] at h
      rcases h with h | h
      · simp at h
      · exact ih st f hf ok h
    | false =>
      have hfa : f ≠ a := by
        intro he
        rw [he, hc] at hf
        simp at hf
      simp only [hc, Bool.false_eq_true, if_false] at h
      cases hP : P a with
      | true =>
        simp only [hP, if_true] at h
        cases hD : D a with
        | true =>
          simp only [hD, if_true, List.mem_cons] at h
          rcases h with h | h | h
          · simp at h
          · injection h with h1 h2
            exact hfa h1
          · exact ih _ f (by simp [memB, hf]) ok h
        | false =>
          simp only [hD, Bool.false_eq_true, if_false, List.mem_cons] at h
          rcases h with h | h | h
          · simp at h
          · injection h with h1 h2
            exact hfa h1
          · simp at h
      | false =>
        simp only [hP, Bool.false_eq_true, if_false, List.mem_cons] at h
        rcases h with h | h
        · simp at h
        · simp at h

theorem uploadLoop_skip_local_kept (P D : String → Bool) (L : String) :
    ∀ (files : List String) (st : SpoolSt) (f : String),
      memB f st.remote = true → f ∈ st.localFiles →
      f ∈ (uploadLoop P D L files st).final.localFiles := by
  intro files
  induction files with
  | nil => intro st f hf hl; simpa [uploadLoop] using hl
  | cons a rest ih =>
    intro st f hf hl
    simp only [uploadLoop]
    cases hc : memB a st.remote with
    | true => simp only [hc, if_true]; exact ih st f hf hl
    | false =>
      have hfa : f ≠ a := by
        intro he
        rw [he, hc] at hf
        simp at hf
      simp only [hc, Bool.false_eq_true, if_false]
      cases hP : P a with
      | true =>
        simp only [hP, if_true]
        cases hD : D a with
        | true =>
          simp only [hD, if_true]
          exact ih _ f (by simp [memB, hf])
            ((List.mem_erase_of_ne hfa).mpr hl)
        | false => simpa [hD] using hl
      | false => simpa [hP] using hl

theorem uploadLoop_put_fresh (P D : String → Bool) (L : String) :
    ∀ (files : List String) (st : SpoolSt) (f : String) (nd ok : Bool),
      UpEv.putCall f nd ok ∈ (uploadLoop P D L files st).trace →
      memB f st.remote = false := by
  intro files
  induction files with
  | nil => intro st f nd ok h; simp [uploadLoop] at h
  | cons a rest ih =>
    intro st f nd ok h
    simp only [uploadLoop] at h
    cases hc : memB a st.remote with
    | true =>
      simp only [hc, if_true, List.mem_cons] at h
      rcases h with h | h
      · simp at h
      · exact ih st f nd ok h
    | false =>
      simp only [hc, Bool.false_eq_true, if_false] at h
      cases hP : P a with
      | true =>
        simp only [hP, if_true] at h
        cases hD : D a with
        | true =>
          simp only [hD, if_true, List.mem_cons] at h
          rcases h with h | h | h
          · injection h with h1 h2 h3
            rw [h1]
            exact hc
          · simp at h
          · have h2 := ih _ f nd ok h
            simp only [memB, Bool.or_eq_false_iff] at h2
            exact h2.2
        | false =>
          simp only [hD, Bool.false_eq_true, if_false, List.mem_cons] at h
          rcases h with h | h | h
          · injection h with h1 h2 h3
            rw [h1]
            exact hc
          · simp at h
          · simp at h
      | false =>
        simp only [hP, Bool.false_eq_true, if_false, List.mem_cons] at h
        rcases h with h | h
        · injection h with h1 h2 h3
          rw [h1]
          exact hc
        · simp at h

theorem uploadLoop_unlink_remote (P D : String → Bool) (L : String) :
    ∀ (files : List String) (st : SpoolSt) (f : String) (ok : Bool),
      UpEv.unlinkCall f ok ∈ (uploadLoop P D L files st).trace →
      memB f (uploadLoop P D L files st).final.remote = true := by
  intro files
  induction files with
  | nil => intro st f ok h; simp [uploadLoop] at h
  | cons a rest ih =>
    intro st f ok h
    simp only [uploadLoop] at h ⊢
    cases hc : memB a st.remote with
    | true =>
      simp only [hc, if_true, List.mem_cons] at h ⊢
      rcases h with h | h
      · simp at h
      · exact ih st f ok h
    | false =>
      simp only [hc, Bool.false_eq_true, if_false] at h ⊢
      cases hP : P a with
      | true =>
        simp only [hP, if_true] at h ⊢
        cases hD : D a with
        | true =>
          simp only [hD, if_true, List.mem_cons] at h ⊢
          rcases h with h | h | h
          · simp at h
          · injection h with h1 h2
            rw [h1]
            exact uploadLoop_remote_mono P D L rest
              ⟨a :: st.remote, st.localFiles.erase a⟩ a (by simp [memB])
          · exact ih _ f ok h
        | false =>
          simp only [hD, Bool.false_eq_true, if_false, List.mem_cons] at h ⊢
          rcases h with h | h | h
          · simp at h
          · injection h with h1 h2
            rw [← h1]
            simp [memB]
          · simp at h
      | false =>
        simp only [hP, Bool.false_eq_true, if_false, List.mem_cons] at h ⊢
        rcases h with h | h
        · simp at h
        · simp at h

/-- Adjacency property of a trace: every unlink call sits immediately after
a successful put call of the same file. -/
def AdjOK (t : List UpEv) : Prop :=
  ∀ (i : Nat) (f : String) (dok : Bool),
    t[i]? = some (UpEv.unlinkCall f dok) →
    ∃ nd : Bool, 1 ≤ i ∧ t[i - 1]? = some (UpEv.putCall f nd true)

theorem adjok_nil : AdjOK [] := by
  intro i f dok h
  simp at h

theorem adjok_cons_skip (g : String) (t : List UpEv) (h : AdjOK t) :
    AdjOK (UpEv.skipped g :: t) := by
  intro i f dok hi
  cases i with
  | zero => simp at hi
  | succ k =>
    rw [List.getElem?_cons_succ] at hi
    obtain ⟨nd, hk1, hk2⟩ := h k f dok hi
    refine ⟨nd, by omega, ?_⟩
    obtain ⟨k2, rfl⟩ : ∃ k2, k = k2 + 1 := ⟨k - 1, by omega⟩
    simpa [List.getElem?_cons_succ, Nat.add_sub_cancel] using hk2

theorem adjok_cons_pair (g : String) (nd0 dok0 : Bool) (t : List UpEv)
    (h : AdjOK t) :
    AdjOK (UpEv.putCall g nd0 true :: UpEv.unlinkCall g dok0 :: t) := by
  intro i f dok hi
  cases i with
  | zero => simp at hi
  | succ k =>
    cases k with
    | zero =>
      rw [List.getElem?_cons_succ, List.getElem?_cons_zero] at hi
      injection hi with hi2
      injection hi2 with ha hb
      subst ha
      exact ⟨nd0, by omega, rfl⟩
    | succ k2 =>
      rw [List.getElem?_cons_succ, List.getElem?_cons_succ] at hi
      obtain ⟨nd, hk1, hk2⟩ := h k2 f dok hi
      refine ⟨nd, by omega, ?_⟩
      obtain ⟨k3, rfl⟩ : ∃ k3, k2 = k3 + 1 := ⟨k2 - 1, by omega⟩
      simpa [List.getElem?_cons_succ, Nat.add_sub_cancel] using hk2

theorem adjok_uploadLoop (P D : String → Bool) (L : String) :
    ∀ (files : List String) (st : SpoolSt),
      AdjOK (uploadLoop P D L files st).trace := by
  intro files
  induction files with
  | nil => intro st; simpa [uploadLoop] using adjok_nil
  | cons a rest ih =>
    intro st
    simp only [uploadLoop]
    cases hc : memB a st.remote with
    | true =>
      simp only [hc, if_true]
      exact adjok_cons_skip a _ (ih st)
    | false =>
      simp only [hc, Bool.false_eq_true, if_false]
      cases hP : P a with
      | true =>
        simp only [hP, if_true]
        cases hD : D a with
        | true =>
          simp only [hD, if_true]
          exact adjok_cons_pair a _ true _ (ih _)
        | false =>
          simp only [hD, Bool.false_eq_true, if_false]
          exact adjok_cons_pair a _ false _ adjok_nil
      | false =>
        simp only [hP, Bool.false_eq_true, if_false]
        intro i f dok hi
        cases i with
        | zero => simp at hi
        | succ k => simp at hi

theorem derivePuts_cons_skip (g : String) (t : List UpEv) :
    derivePuts (UpEv.skipped g :: t) = derivePuts t := by
  simp [derivePuts, derivePutOf]

theorem derivePuts_cons_put_true (g : String) (ok : Bool) (t : List UpEv) :
    derivePuts (UpEv.putCall g true ok :: t) = derivePuts t := by
  simp [derivePuts, derivePutOf]

theorem derivePuts_cons_unlink (g : String) (ok : Bool) (t : List UpEv) :
    derivePuts (UpEv.unlinkCall g ok :: t) = derivePuts t := by
  simp [derivePuts, derivePutOf]

theorem derivePuts_cons_put_false (g : String) (ok : Bool) (t : List UpEv) :
    derivePuts (UpEv.putCall g false ok :: t) = (g, ok) :: derivePuts t := by
  simp [derivePuts, derivePutOf]

theorem putfail_aborts (P D : String → Bool) (L : String) :
    ∀ (l1 : List String) (f : String) (l2 : List String) (st : SpoolSt)
      (nd : Bool),
      (l1 ++ f :: l2).Nodup →
      UpEv.putCall f nd false ∈ (uploadLoop P D L (l1 ++ f :: l2) st).trace →
      (uploadLoop P D L (l1 ++ f :: l2) st).completed = false ∧
      ∀ g ∈ f :: l2, ∀ ok : Bool,
        UpEv.unlinkCall g ok ∉ (uploadLoop P D L (l1 ++ f :: l2) st).trace := by
  intro l1
  induction l1 with
  | nil =>
    intro f l2 st nd hnd h
    simp only [List.nil_append] at hnd h ⊢
    have hfnotin : f ∉ l2 := (List.nodup_cons.mp hnd).1
    simp only [uploadLoop] at h ⊢
    cases hc : memB f st.remote with
    | true =>
      simp only [hc, if_true] at h
      rcases List.mem_cons.mp h with h | h
      · simp at h
      · exact absurd (uploadLoop_put_mem P D L l2 st f nd false h) hfnotin
    | false =>
      simp only [hc, Bool.false_eq_true, if_false] at h ⊢
      cases hP : P f with
      | true =>
        simp only [hP, if_true] at h ⊢
        cases hD : D f with
        | true =>
          simp only [hD, if_true] at h
          rcases List.mem_cons.mp h with h | h
          · injection h with h1 h2 h3
            exact absurd h3 (by simp)
          rcases List.mem_cons.mp h with h | h
          · simp at h
          · exact absurd (uploadLoop_put_mem P D L l2 _ f nd false h) hfnotin
        | false =>
          simp only [hD, Bool.false_eq_true, if_false] at h
          rcases List.mem_cons.mp h with h | h
          · injection h with h1 h2 h3
            exact absurd h3 (by simp)
          rcases List.mem_cons.mp h with h | h
          · simp at h
          · simp at h
      | false =>
        simp only [hP, Bool.false_eq_true, if_false]
        refine ⟨by simp, ?_⟩
        intro g hg ok hmem
        rcases List.mem_cons.mp hmem with hmem | hmem
        · simp at hmem
        · simp at hmem
  | cons a l1 ih =>
    intro f l2 st nd hnd h
    simp only [List.cons_append] at hnd h ⊢
    have hna : a ∉ l1 ++ f :: l2 := (List.nodup_cons.mp hnd).1
    have hnrest : (l1 ++ f :: l2).Nodup := (List.nodup_cons.mp hnd).2
    have haf : a ≠ f := by
      intro he
      apply hna
      rw [he]
      exact List.mem_append_right l1 (List.mem_cons_self f l2)
    simp only [uploadLoop] at h ⊢
    cases hc : memB a st.remote with
    | true =>
      simp only [hc, if_true] at h ⊢
      have h2 : UpEv.putCall f nd false ∈
          (uploadLoop P D L (l1 ++ f :: l2) st).trace := by
        rcases List.mem_cons.mp h with h | h
        · exact absurd h (by simp)
        · exact h
      obtain ⟨hcomp, hnol⟩ := ih f l2 st nd hnrest h2
      refine ⟨hcomp, ?_⟩
      intro g hg ok hmem
      rcases List.mem_cons.mp hmem with hmem | hmem
      · simp at hmem
      · exact hnol g hg ok hmem
    | false =>
      simp only [hc, Bool.false_eq_true, if_false] at h ⊢
      cases hP : P a with
      | true =>
        simp only [hP, if_true] at h ⊢
        cases hD : D a with
        | true =>
          simp only [hD, if_true] at h ⊢
          have h2 : UpEv.putCall f nd false ∈
              (uploadLoop P D L (l1 ++ f :: l2)
                ⟨a :: st.remote, st.localFiles.erase a⟩).trace := by
            rcases List.mem_cons.mp h with h | h
            · injection h with h1 h2 h3
              exact absurd h3 (by simp)
            rcases List.mem_cons.mp h with h | h
            · exact absurd h (by simp)
            · exact h
          obtain ⟨hcomp, hnol⟩ := ih f l2
            ⟨a :: st.remote, st.localFiles.erase a⟩ nd hnrest h2
          refine ⟨hcomp, ?_⟩
          intro g hg ok hmem
          rcases List.mem_cons.mp hmem with hmem | hmem
          · simp at hmem
          rcases List.mem_cons.mp hmem with hmem | hmem
          · injection hmem with h1 h2
            apply hna
            rw [← h1]
            exact List.mem_append_right l1 hg
          · exact hnol g hg ok hmem
        | false =>
          simp only [hD, Bool.false_eq_true, if_false] at h
          rcases List.mem_cons.mp h with h | h
          · injection h with h1 h2 h3
            exact absurd h3 (by simp)
          rcases List.mem_cons.mp h with h | h
          · simp at h
          · simp at h
      | false =>
        simp only [hP, Bool.false_eq_true, if_false] at h
        rcases List.mem_cons.mp h with h | h
        · injection h with h1 h2 h3
          exact absurd h1.symm haf
        · simp at h

theorem unlinkfail_ends (P D : String → Bool) (L : String) :
    ∀ (files : List String) (st : SpoolSt) (i : Nat) (f : String),
      (uploadLoop P D L files st).trace[i]? =
        some (UpEv.unlinkCall f false) →
      (uploadLoop P D L files st).completed = false ∧
      i + 1 = (uploadLoop P D L files st).trace.length := by
  intro files
  induction files with
  | nil => intro st i f h; simp [uploadLoop] at h
  | cons a rest ih =>
    intro st i f h
    simp only [uploadLoop] at h ⊢
    cases hc : memB a st.remote with
    | true =>
      simp only [hc, if_true] at h ⊢
      cases i with
      | zero => rw [List.getElem?_cons_zero] at h; simp at h
      | succ k =>
        rw [List.getElem?_cons_succ] at h
        obtain ⟨h1, h2⟩ := ih st k f h
        refine ⟨h1, ?_⟩
        simp only [List.length_cons]
        omega
    | false =>
      simp only [hc, Bool.false_eq_true, if_false] at h ⊢
      cases hP : P a with
      | true =>
        simp only [hP, if_true] at h ⊢
        cases hD : D a with
        | true =>
          simp only [hD, if_true] at h ⊢
          cases i with
          | zero => rw [List.getElem?_cons_zero] at h; simp at h
          | succ k =>
            cases k with
            | zero =>
              rw [List.getElem?_cons_succ, List.getElem?_cons_zero] at h
              injection h with h2
              injection h2 with h3 h4
              exact absurd h4 (by simp)
            | succ k2 =>
              rw [List.getElem?_cons_succ, List.getElem?_cons_succ] at h
              obtain ⟨h1, h2⟩ := ih _ k2 f h
              refine ⟨h1, ?_⟩
              simp only [List.length_cons]
              omega
        | false =>
          simp only [hD, Bool.false_eq_true, if_false] at h ⊢
          cases i with
          | zero => rw [List.getElem?_cons_zero] at h; simp at h
          | succ k =>
            cases k with
            | zero => exact ⟨by simp, by simp⟩
            | succ k2 =>
              rw [List.getElem?_cons_succ, List.getElem?_cons_succ] at h
              simp at h
      | false =>
        simp only [hP, Bool.false_eq_true, if_false] at h ⊢
        cases i with
        | zero => rw [List.getElem?_cons_zero] at h; simp at h
        | succ k => rw [List.getElem?_cons_succ] at h; simp at h

theorem reach_skip (P D : String → Bool) (L : String) :
    ∀ (files : List String) (st : SpoolSt) (f : String),
      (∀ g ∈ files, P g = true ∧ D g = true) → f ∈ files →
      memB f st.remote = true →
      UpEv.skipped f ∈ (uploadLoop P D L files st).trace := by
  intro files
  induction files with
  | nil => intro st f hok hf hr; simp at hf
  | cons a rest ih =>
    intro st f hok hf hr
    simp only [uploadLoop]
    cases hc : memB a st.remote with
    | true =>
      simp only [hc, if_true]
      rcases List.mem_cons.mp hf with hf | hf
      · rw [hf]; exact List.mem_cons_self _ _
      · exact List.mem_cons_of_mem _
          (ih st f (fun g hg => hok g (List.mem_cons_of_mem a hg)) hf hr)
    | false =>
      have hfa : f ≠ a := by
        intro he; rw [he, hc] at hr; simp at hr
      have hfr : f ∈ rest := by
        rcases List.mem_cons.mp hf with h1 | h1
        · exact absurd h1 hfa
        · exact h1
      have hPa : P a = true := (hok a (List.mem_cons_self a rest)).1
      have hDa : D a = true := (hok a (List.mem_cons_self a rest)).2
      simp only [hc, Bool.false_eq_true, if_false, hPa, hDa, if_true]
      refine List.mem_cons_of_mem _ (List.mem_cons_of_mem _ ?_)
      exact ih ⟨a :: st.remote, st.localFiles.erase a⟩ f
        (fun g hg => hok g (List.mem_cons_of_mem a hg)) hfr
        (by simp [memB, hr])

theorem derive_once_aux (P D : String → Bool) (L : String) :
    ∀ (files : List String) (d : String) (st : SpoolSt),
      files ≠ [] → lastD d files = L → files.Nodup →
      (∀ g ∈ files, P g = true ∧ D g = true) →
      memB L st.remote = false →
      derivePuts (uploadLoop P D L files st).trace = [(L, true)] := by
  intro files
  induction files with
  | nil => intro d st hne; exact absurd rfl hne
  | cons a rest ih =>
    intro d st hne hlast hnd hok hrem
    cases rest with
    | nil =>
      have haL : a = L := by simpa [lastD] using hlast
      subst haL
      have hPa : P a = true := (hok a (List.mem_cons_self a [])).1
      have hDa : D a = true := (hok a (List.mem_cons_self a [])).2
      simp [uploadLoop, hrem, hPa, hDa, derivePuts, derivePutOf,
        bne_self_eq_false]
    | cons b rest2 =>
      have hlast2 : lastD a (b :: rest2) = L := by simpa [lastD] using hlast
      have hLmem : L ∈ b :: rest2 :=
        hlast2 ▸ lastD_mem a (b :: rest2) (by simp)
      have hna : a ∉ b :: rest2 := (List.nodup_cons.mp hnd).1
      have haL : a ≠ L := fun he => hna (he ▸ hLmem)
      have hnd2 : (b :: rest2).Nodup := (List.nodup_cons.mp hnd).2
      have hok2 : ∀ g ∈ b :: rest2, P g = true ∧ D g = true :=
        fun g hg => hok g (List.mem_cons_of_mem a hg)
      simp only [uploadLoop]
      cases hc : memB a st.remote with
      | true =>
        simp only [hc, if_true, derivePuts_cons_skip]
        exact ih a st (by simp) hlast2 hnd2 hok2 hrem
      | false =>
        have hPa : P a = true := (hok a (List.mem_cons_self _ _)).1
        have hDa : D a = true := (hok a (List.mem_cons_self _ _)).2
        have hbne : (a != L) = true := bne_iff_ne.mpr haL
        have hrem2 : memB L (a :: st.remote) = false := by
          simp only [memB, hrem, Bool.or_false]
          exact beq_eq_false_iff_ne.mpr (fun he => haL he.symm)
        simp only [hc, Bool.false_eq_true, if_false, hPa, hDa, if_true,
          hbne, derivePuts_cons_put_true, derivePuts_cons_unlink]
        exact ih a ⟨a :: st.remote, st.localFiles.erase a⟩ (by simp)
          hlast2 hnd2 hok2 hrem2

theorem pollLoop_absent (lookup : Nat → Bool) :
    ∀ (fuel i : Nat), (∀ k, i ≤ k → k < i + fuel → lookup k = false) →
      pollLoop lookup i fuel = (fuel, 60 * fuel, false) := by
  intro fuel
  induction fuel with
  | zero => intro i h; rfl
  | succ n ih =>
    intro i h
    have h0 : lookup i = false := h i (le_refl i) (by omega)
    have h2 := ih (i + 1) (fun k hk1 hk2 => h k (by omega) (by omega))
    simp only [pollLoop, h0, Bool.false_eq_true, if_false, h2,
      Nat.mul_succ]

theorem pollLoop_bound (lookup : Nat → Bool) :
    ∀ (fuel i : Nat), (pollLoop lookup i fuel).1 ≤ fuel := by
  intro fuel
  induction fuel with
  | zero => intro i; simp [pollLoop]
  | succ n ih =>
    intro i
    simp only [pollLoop]
    cases hl : lookup i with
    | true => simp
    | false =>
      simp only [Bool.false_eq_true, if_false]
      have h2 := ih (i + 1)
      omega

theorem cycle_lookup_independent (maxF maxS : Nat) (env : FsEnv)
    (pfx : String) (iF : Bool) (P D : String → Bool) (files : List String)
    (sizes : List Nat) (st : SpoolSt) (lookup lookup2 : Nat → Bool) :
    Option.map cycleObservable
      (upload_and_delete_files maxF maxS env pfx iF lookup P D files sizes
        st) =
    Option.map cycleObservable
      (upload_and_delete_files maxF maxS env pfx iF lookup2 P D files sizes
        st) := by
  cases hml : make_filelist maxF maxS files sizes with
  | none => simp [upload_and_delete_files, hml]
  | some fl =>
    cases hbn : make_bucket_name env pfx fl with
    | none => simp [upload_and_delete_files, hml, hbn]
    | some bn => simp [upload_and_delete_files, hml, hbn, cycleObservable]

/-! Claim theorems. -/

/-- C1: deletion is gated strictly behind confirmed upload. In every cycle
over a duplicate-free batch, every `os.unlink` call in the trace sits
immediately after the successful put call of the same file, and when the
put of a file fails the cycle is aborted: the loop does not complete and
neither that file nor any file after it in the batch is ever unlinked. -/
theorem c1_deletion_gated (P D : String → Bool) (L : String)
    (files : List String) (st : SpoolSt) (hnd : files.Nodup) :
    (∀ (i : Nat) (f : String) (dok : Bool),
      (uploadLoop P D L files st).trace[i]? =
        some (UpEv.unlinkCall f dok) →
      ∃ nd : Bool, 1 ≤ i ∧
        (uploadLoop P D L files st).trace[i - 1]? =
          some (UpEv.putCall f nd true)) ∧
    (∀ (l1 : List String) (f : String) (l2 : List String) (nd : Bool),
      files = l1 ++ f :: l2 →
      UpEv.putCall f nd false ∈ (uploadLoop P D L files st).trace →
      (uploadLoop P D L files st).completed = false ∧
      ∀ g ∈ f :: l2, ∀ ok : Bool,
        UpEv.unlinkCall g ok ∉ (uploadLoop P D L files st).trace) := by
  constructor
  · exact adjok_uploadLoop P D L files st
  · intro l1 f l2 nd heq h
    subst heq
    exact putfail_aborts P D L l1 f l2 st nd hnd h

/-- C1 witness: when the put of "a" fails on the batch ["a", "b"], the
cycle does not complete and "b" is never unlinked. -/
theorem c1_deletion_gated_witness :
    (uploadLoop failsOnA allTrue "b" ["a", "b"]
      ⟨[], ["a", "b"]⟩).completed = false ∧
    UpEv.unlinkCall "b" true ∉
      (uploadLoop failsOnA allTrue "b" ["a", "b"]
        ⟨[], ["a", "b"]⟩).trace := by
  refine ⟨?_, ?_⟩
  · exact ((c1_deletion_gated failsOnA allTrue "b" ["a", "b"]
      ⟨[], ["a", "b"]⟩ (by decide)).2 [] "a" ["b"] true rfl (by decide)).1
  · exact ((c1_deletion_gated failsOnA allTrue "b" ["a", "b"]
      ⟨[], ["a", "b"]⟩ (by decide)).2 [] "a" ["b"] true rfl (by decide)).2
      "b" (by decide) true

/-- C2 (code bug evidence): with max_files = 10 and max_size = 1 GiB, two
600 MB files are both selected even though their accumulated size reaches
the threshold with two files already in the batch: the source never
increments `upload_size`, so the size bound is never enforced (and the
overflow-drop line would crash on the undefined variable `a` if it were
ever reached). -/
theorem c2_size_bound_violated :
    make_filelist 10 1073741824 ["f1", "f2"] [600000000, 600000000] =
      some ["f1", "f2"] ∧
    1073741824 ≤ 600000000 + 600000000 := ⟨rfl, by norm_num⟩

/-- C3: idempotency via the remote-existence check: a file already present
remotely is never put and never unlinked and its local copy survives the
cycle; every put call is for a file absent from the remote at cycle start;
and a second committer run over the same batch never re-unlinks or
re-uploads a file the first run unlinked. -/
theorem c3_idempotent (P D : String → Bool) (L : String)
    (files : List String) (st : SpoolSt) (f : String)
    (hf : memB f st.remote = true) :
    (∀ nd ok : Bool,
      UpEv.putCall f nd ok ∉ (uploadLoop P D L files st).trace) ∧
    (∀ ok : Bool,
      UpEv.unlinkCall f ok ∉ (uploadLoop P D L files st).trace) ∧
    (f ∈ st.localFiles →
      f ∈ (uploadLoop P D L files st).final.localFiles) ∧
    (∀ (g : String) (nd ok : Bool),
      UpEv.putCall g nd ok ∈ (uploadLoop P D L files st).trace →
      memB g st.remote = false) ∧
    (∀ (g : String) (ok1 ok2 : Bool),
      UpEv.unlinkCall g ok1 ∈ (uploadLoop P D L files st).trace →
      UpEv.unlinkCall g ok2 ∉
        (uploadLoop P D L files (uploadLoop P D L files st).final).trace) ∧
    (∀ (g : String) (ok1 nd ok2 : Bool),
      UpEv.unlinkCall g ok1 ∈ (uploadLoop P D L files st).trace →
      UpEv.putCall g nd ok2 ∉
        (uploadLoop P D L files
          (uploadLoop P D L files st).final).trace) := by
  refine ⟨uploadLoop_skip_no_put P D L files st f hf,
    uploadLoop_skip_no_unlink P D L files st f hf,
    uploadLoop_skip_local_kept P D L files st f hf,
    fun g nd ok h => uploadLoop_put_fresh P D L files st g nd ok h,
    fun g ok1 ok2 h => uploadLoop_skip_no_unlink P D L files _ g
      (uploadLoop_unlink_remote P D L files st g ok1 h) ok2,
    fun g ok1 nd ok2 h => uploadLoop_skip_no_put P D L files _ g
      (uploadLoop_unlink_remote P D L files st g ok1 h) nd ok2⟩

/-- C3 witness: with "a" already remote in the batch ["a", "b"], "a" is
never put, its local copy survives, and a second run after the first never
unlinks "b" again. -/
theorem c3_idempotent_witness :
    UpEv.putCall "a" true true ∉
      (uploadLoop allTrue allTrue "b" ["a", "b"]
        ⟨["a"], ["a", "b"]⟩).trace ∧
    "a" ∈ (uploadLoop allTrue allTrue "b" ["a", "b"]
      ⟨["a"], ["a", "b"]⟩).final.localFiles ∧
    UpEv.unlinkCall "b" true ∉
      (uploadLoop allTrue allTrue "b" ["a", "b"]
        (uploadLoop allTrue allTrue "b" ["a", "b"]
          ⟨["a"], ["a", "b"]⟩).final).trace := by
  have h := c3_idempotent allTrue allTrue "b" ["a", "b"]
    ⟨["a"], ["a", "b"]⟩ "a" (by decide)
  exact ⟨h.1 true true, h.2.2.1 (by decide),
    h.2.2.2.2.1 "b" true true (by decide)⟩

/-- C4 counterexample: with every lookup reporting the container absent
(the initial one and all 10 poll attempts), `upload_and_delete_files` does
not surface any failure: after 10 lookups and 600 seconds of sleeping it
runs the full upload loop, uploads the file and deletes the local copy —
refuting "no upload proceeds without a confirmed container, leaving all
local files in place". -/
theorem c4_counterexample :
    upload_and_delete_files 10 1000 fsEnv0 "p" false lookupNever allTrue
      allTrue ["a-1-2.arc.gz"] [5] ⟨[], ["a-1-2.arc.gz"]⟩ =
    some ⟨["a-1-2.arc.gz"], "p-1-2-1", 10, 600, false,
      [UpEv.putCall "a-1-2.arc.gz" false true,
        UpEv.unlinkCall "a-1-2.arc.gz" true],
      ⟨["a-1-2.arc.gz"], []⟩, true⟩ := by rfl

/-- C4 (amended): when the container is not found the committer creates it
and polls existence with at most 10 lookups at 60-second intervals; if the
container is still absent after all attempts it stops waiting and — no
failure surfaced — proceeds with the handle returned by the create
request: the cycle's trace, final state and completion are independent of
the lookup outcomes. -/
theorem c4_bounded_poll_then_proceed (lookup : Nat → Bool) (name : String)
    (habsent : ∀ k, k < 10 → lookup k = false) :
    (s3_get_bucket false lookup name).lookups = 10 ∧
    (s3_get_bucket false lookup name).slept = 600 ∧
    (s3_get_bucket false lookup name).confirmed = false ∧
    (s3_get_bucket false lookup name).bucket = name ∧
    (∀ lookup2 : Nat → Bool,
      (s3_get_bucket false lookup2 name).lookups ≤ 10) ∧
    (∀ (maxF maxS : Nat) (env : FsEnv) (pfx : String) (iF : Bool)
      (P D : String → Bool) (files : List String) (sizes : List Nat)
      (st : SpoolSt) (lookup2 : Nat → Bool),
      Option.map cycleObservable
        (upload_and_delete_files maxF maxS env pfx iF lookup P D files
          sizes st) =
      Option.map cycleObservable
        (upload_and_delete_files maxF maxS env pfx iF lookup2 P D files
          sizes st)) := by
  have hp := pollLoop_absent lookup 10 0
    (fun k hk1 hk2 => habsent k (by omega))
  refine ⟨?_, ?_, ?_, ?_, ?_, ?_⟩
  · simp [s3_get_bucket, hp]
  · simp [s3_get_bucket, hp]
  · simp [s3_get_bucket, hp]
  · simp [s3_get_bucket]
  · intro lookup2
    simp only [s3_get_bucket, Bool.false_eq_true, if_false]
    exact pollLoop_bound lookup2 10 0
  · intro maxF maxS env pfx iF P D files sizes st lookup2
    exact cycle_lookup_independent maxF maxS env pfx iF P D files sizes
      st lookup lookup2

/-- C4 witness: the never-found lookup makes exactly 10 poll lookups,
sleeps 600 seconds and confirms nothing; any lookup makes at most 10. -/
theorem c4_bounded_poll_then_proceed_witness :
    (s3_get_bucket false lookupNever "b").lookups = 10 ∧
    (s3_get_bucket false lookupNever "b").slept = 600 ∧
    (s3_get_bucket false lookupNever "b").confirmed = false ∧
    (s3_get_bucket false lookupAlways "b").lookups ≤ 10 := by
  have h := c4_bounded_poll_then_proceed lookupNever "b" (fun k hk => rfl)
  exact ⟨h.1, h.2.1, h.2.2.1, h.2.2.2.2.1 lookupAlways⟩

/-- C5 counterexample: when the unlink of "a" raises after its successful
upload, the cycle stops on the spot: the trace ends at the failed unlink,
"b" is never examined or uploaded, and the loop does not complete —
refuting "logged and does not abort the cycle; the committer continues
with the remaining files of the batch". -/
theorem c5_counterexample :
    uploadLoop allTrue failsOnA "b" ["a", "b"] ⟨[], ["a", "b"]⟩ =
      ⟨[UpEv.putCall "a" true true, UpEv.unlinkCall "a" false],
        ⟨["a"], ["a", "b"]⟩, false⟩ := by rfl

/-- C5 (amended): a failed local deletion is fatal for the cycle: the
failing unlink is always the final event of the trace and the loop does
not run to completion, so the remaining files of the batch are left
unprocessed (the uploaded bytes of the failed-delete file stay remote and
the next cycle will skip it). -/
theorem c5_delete_failure_fatal (P D : String → Bool) (L : String)
    (files : List String) (st : SpoolSt) (i : Nat) (f : String)
    (h : (uploadLoop P D L files st).trace[i]? =
      some (UpEv.unlinkCall f false)) :
    (uploadLoop P D L files st).completed = false ∧
    i + 1 = (uploadLoop P D L files st).trace.length :=
  unlinkfail_ends P D L files st i f h

/-- C5 witness: the failing unlink of "a" at index 1 is the last event of
a two-event trace and the cycle is not completed. -/
theorem c5_delete_failure_fatal_witness :
    (uploadLoop allTrue failsOnA "b" ["a", "b"]
      ⟨[], ["a", "b"]⟩).completed = false ∧
    1 + 1 = (uploadLoop allTrue failsOnA "b" ["a", "b"]
      ⟨[], ["a", "b"]⟩).trace.length :=
  c5_delete_failure_fatal allTrue failsOnA "b" ["a", "b"]
    ⟨[], ["a", "b"]⟩ 1 "a" (by decide)

/-- C6: derive-trigger policy: over a duplicate-free batch whose last file
is not yet remote and whose puts and unlinks all succeed, the derive
trigger is sent exactly once — on the successful put of the last file —
and every put call of a non-last file carries `no_derive`. -/
theorem c6_derive_once (P D : String → Bool) (files : List String)
    (st : SpoolSt) (hne : files ≠ []) (hnd : files.Nodup)
    (hok : ∀ g ∈ files, P g = true ∧ D g = true)
    (hrem : memB (lastD "" files) st.remote = false) :
    derivePuts (uploadLoop P D (lastD "" files) files st).trace =
      [(lastD "" files, true)] ∧
    (∀ (f : String) (nd ok : Bool),
      UpEv.putCall f nd ok ∈
        (uploadLoop P D (lastD "" files) files st).trace →
      f ≠ lastD "" files → nd = true) := by
  constructor
  · exact derive_once_aux P D (lastD "" files) files "" st hne rfl hnd
      hok hrem
  · intro f nd ok h hf
    have h2 := uploadLoop_put_nd P D (lastD "" files) files st f nd ok h
    rw [h2]
    exact bne_iff_ne.mpr hf

/-- C6 witness: on the batch ["a", "b"] with an empty remote, the only
derive-triggering put is the successful put of "b". -/
theorem c6_derive_once_witness :
    derivePuts (uploadLoop allTrue allTrue "b" ["a", "b"]
      ⟨[], ["a", "b"]⟩).trace = [("b", true)] := by
  have h := c6_derive_once allTrue allTrue ["a", "b"] ⟨[], ["a", "b"]⟩
    (by decide) (by decide) (fun g hg => ⟨rfl, rfl⟩) (by decide)
  exact h.1

/-- C7: the Bucket Namer is a pure function of prefix, first and last
file: on every non-empty batch it returns exactly
`prefix-firstTimestamp-firstSeqNum-lastTimestamp`, and replacing only the
middle files of the batch never changes the name. -/
theorem c7_bucket_namer (env : FsEnv) (pfx f0 lastf : String)
    (mid : List String) :
    make_bucket_name env pfx (f0 :: mid ++ [lastf]) =
      some (pfx ++ "-" ++ get_timestamp env f0 ++ "-" ++ get_seq_num f0 ++
        "-" ++ get_timestamp env lastf) ∧
    make_bucket_name env pfx [f0] =
      some (pfx ++ "-" ++ get_timestamp env f0 ++ "-" ++ get_seq_num f0 ++
        "-" ++ get_timestamp env f0) ∧
    ∀ mid2 : List String,
      make_bucket_name env pfx (f0 :: mid ++ [lastf]) =
        make_bucket_name env pfx (f0 :: mid2 ++ [lastf]) := by
  refine ⟨?_, ?_, ?_⟩
  · simp [make_bucket_name, lastD_concat]
  · simp [make_bucket_name, lastD]
  · intro mid2
    simp [make_bucket_name, lastD_concat]

/-- C8: Filename Metadata Extractor contract: on every canonical filename
`<word-chars>-<digits>-<digits>.(w)arc.gz` the extractors return the two
embedded digit groups exactly; on every filename the pattern does not
match, `get_seq_num` falls back to "00000" and `get_timestamp` to the file
creation time converted to UTC and truncated to a 17-character
`YYYYMMDDHHMMSSmmm` stamp; both functions are total, so neither throws. -/
theorem c8_extractor (env : FsEnv) (w d1 d2 : List Char) (useW : Bool)
    (g : String) (hw : w ≠ []) (hwc : ∀ x ∈ w, isWordChar x = true)
    (h1 : d1 ≠ []) (h1d : ∀ x ∈ d1, x.isDigit = true)
    (h2 : d2 ≠ []) (h2d : ∀ x ∈ d2, x.isDigit = true)
    (hg : s3FilenameMatch g.data = none) :
    get_seq_num (String.mk (canonList w d1 d2 useW)) = String.mk d2 ∧
    get_timestamp env (String.mk (canonList w d1 d2 useW)) =
      String.mk d1 ∧
    get_seq_num g = "00000" ∧
    get_timestamp env g =
      String.mk ((utcStampList (env.ctime g).1 (env.ctime g).2).take 17) ∧
    (get_timestamp env g).length = 17 := by
  have hm := s3match_canon w d1 d2 useW hw hwc h1 h1d h2 h2d
  refine ⟨?_, ?_, ?_, ?_, ?_⟩
  · simp only [get_seq_num, data_mk, hm]
  · simp only [get_timestamp, data_mk, hm]
  · simp only [get_seq_num, hg]
  · simp only [get_timestamp, hg]
  · simp only [get_timestamp, hg]
    have hlen := utcStampList_len (env.ctime g).1 (env.ctime g).2
    show ((utcStampList (env.ctime g).1 (env.ctime g).2).take 17).length
      = 17
    rw [List.length_take]
    omega

/-- C8 witness: the canonical name crawl-20230101000000-00001.warc.gz
yields its embedded groups; foo.txt does not match and falls back to the
17-character epoch stamp. -/
theorem c8_extractor_witness :
    get_seq_num (String.mk (canonList "crawl".data "20230101000000".data
      "00001".data true)) = String.mk "00001".data ∧
    get_timestamp fsEnv0 (String.mk (canonList "crawl".data
      "20230101000000".data "00001".data true)) =
      String.mk "20230101000000".data ∧
    get_seq_num "foo.txt" = "00000" ∧
    get_timestamp fsEnv0 "foo.txt" =
      String.mk ((utcStampList (fsEnv0.ctime "foo.txt").1
        (fsEnv0.ctime "foo.txt").2).take 17) ∧
    (get_timestamp fsEnv0 "foo.txt").length = 17 :=
  c8_extractor fsEnv0 "crawl".data "20230101000000".data "00001".data
    true "foo.txt" (by decide) (by decide) (by decide) (by decide)
    (by decide) (by decide) (by decide)

/-- C9 (code bug evidence): the metadata mapping is computed by
`format_metadata` exactly as described — template values with the
placeholders substituted, keys prefixed `x-archive-meta-`, plus the
`x-archive-size-hint` attribute with the batch size — but the upload path
never attaches it: the headers of every `s3_upload_file` call consist of
the derive-queue header alone (and of nothing at all on the
derive-triggering final put); `format_metadata` has no caller anywhere in
the source. -/
theorem c9_metadata_never_attached :
    format_metadata "host1" [("sponsor", "CRAWLHOST")] fsEnv0
      ["a-20230101000000-00001.warc.gz"] 5 =
      some [("x-archive-meta-sponsor", "host1"),
        ("x-archive-size-hint", "5")] ∧
    s3_upload_headers true = [("x-archive-queue-derive", "0")] ∧
    s3_upload_headers false = [] := ⟨rfl, rfl, rfl⟩

/-- C10: when the batch's last file already exists in the remote container
and the cycle is otherwise failure-free, the last file is skipped, and no
put call of the whole cycle carries the derive trigger: every upload of
the cycle is sent with `no_derive` set. -/
theorem c10_last_exists_no_derive (P D : String → Bool)
    (files : List String) (st : SpoolSt) (hne : files ≠ [])
    (hok : ∀ g ∈ files, P g = true ∧ D g = true)
    (hrem : memB (lastD "" files) st.remote = true) :
    UpEv.skipped (lastD "" files) ∈
      (uploadLoop P D (lastD "" files) files st).trace ∧
    (∀ (f : String) (nd ok : Bool),
      UpEv.putCall f nd ok ∈
        (uploadLoop P D (lastD "" files) files st).trace →
      nd = true) := by
  constructor
  · exact reach_skip P D (lastD "" files) files st (lastD "" files) hok
      (lastD_mem "" files hne) hrem
  · intro f nd ok h
    have h2 := uploadLoop_put_nd P D (lastD "" files) files st f nd ok h
    have h3 : f ≠ lastD "" files := by
      intro he
      have h4 := uploadLoop_skip_no_put P D (lastD "" files) files st
        (lastD "" files) hrem nd ok
      rw [he] at h
      exact h4 h
    rw [h2]
    exact bne_iff_ne.mpr h3

/-- C10 witness: with "b" (the last file) already remote, the cycle over
["a", "b"] skips "b", and the put of "a" it performs carries
`no_derive`. -/
theorem c10_last_exists_no_derive_witness :
    UpEv.skipped "b" ∈ (uploadLoop allTrue allTrue "b" ["a", "b"]
      ⟨["b"], ["a", "b"]⟩).trace ∧
    UpEv.putCall "a" true true ∈ (uploadLoop allTrue allTrue "b"
      ["a", "b"] ⟨["b"], ["a", "b"]⟩).trace := by
  have h := c10_last_exists_no_derive allTrue allTrue ["a", "b"]
    ⟨["b"], ["a", "b"]⟩ (by decide) (fun g hg => ⟨rfl, rfl⟩) (by decide)
  exact ⟨h.1, by decide⟩
